import Mathlib

/-!
Verification of the PPO fine-tuning trainer
(`script/utils/ppo_trainer_with_peft.py`).

Tensors are embedded as `List` values: per-example rows of log-probabilities,
values and rewards become `List ℚ` (or `List ℝ` where the original computes a
square root or a real-exponent power), attention/response masks become
`List ℕ` with entries 0/1, and batches become lists of rows.  Fallible
tensor indexing (`tensor.nonzero()[-1]`, which raises on an all-zero mask)
is embedded with `Option`; the exception flow of a Python forward pass is
embedded with `Except` carrying the mutated model state.
-/

/-- clamp from the torch library: clamp x to the interval [lo, hi]. -/
def torch_clamp (x lo hi : ℚ) : ℚ := max lo (min x hi)

/-- Index of the last nonzero entry of a mask row, i.e. the source's
`mask.nonzero()[-1]`; `none` embeds the IndexError raised on an all-zero
mask. -/
def lastNonzeroIndex : List ℕ → Option ℕ
  | [] => none
  | x :: xs =>
    match lastNonzeroIndex xs with
    | some e => some (e + 1)
    | none => if x ≠ 0 then some 0 else none

theorem lastNonzeroIndex_lt_length {l : List ℕ} {e : ℕ}
    (h : lastNonzeroIndex l = some e) : e < l.length := by
  induction l generalizing e with
  | nil => simp [lastNonzeroIndex] at h
  | cons x xs ih =>
    cases hx : lastNonzeroIndex xs with
    | some e2 =>
      simp only [lastNonzeroIndex, hx, Option.some.injEq] at h
      subst h
      have := ih hx
      simp only [List.length_cons]
      omega
    | none =>
      simp only [lastNonzeroIndex, hx] at h
      by_cases hx0 : x ≠ 0
      · rw [if_pos hx0] at h
        simp only [Option.some.injEq] at h
        subst h
        simp
      · rw [if_neg hx0] at h
        exact absurd h (by simp)

theorem lastNonzeroIndex_eq_none {l : List ℕ}
    (h : lastNonzeroIndex l = none) : ∀ j, l.getD j 0 = 0 := by
  induction l with
  | nil => intro j; simp
  | cons x xs ih =>
    cases hx : lastNonzeroIndex xs with
    | some e2 => simp [lastNonzeroIndex, hx] at h
    | none =>
      simp only [lastNonzeroIndex, hx] at h
      by_cases hx0 : x ≠ 0
      · rw [if_pos hx0] at h
        exact absurd h (by simp)
      · intro j
        cases j with
        | zero =>
          push_neg at hx0
          simp [hx0]
        | succ j2 => simpa using ih hx j2

theorem lastNonzeroIndex_nonzero {l : List ℕ} {e : ℕ}
    (h : lastNonzeroIndex l = some e) : l.getD e 0 ≠ 0 := by
  induction l generalizing e with
  | nil => simp [lastNonzeroIndex] at h
  | cons x xs ih =>
    cases hx : lastNonzeroIndex xs with
    | some e2 =>
      simp only [lastNonzeroIndex, hx, Option.some.injEq] at h
      subst h
      simpa using ih hx
    | none =>
      simp only [lastNonzeroIndex, hx] at h
      by_cases hx0 : x ≠ 0
      · rw [if_pos hx0] at h
        simp only [Option.some.injEq] at h
        subst h
        simpa using hx0
      · rw [if_neg hx0] at h
        exact absurd h (by simp)

theorem lastNonzeroIndex_last {l : List ℕ} {e : ℕ}
    (h : lastNonzeroIndex l = some e) : ∀ j, e < j → l.getD j 0 = 0 := by
  induction l generalizing e with
  | nil => simp [lastNonzeroIndex] at h
  | cons x xs ih =>
    cases hx : lastNonzeroIndex xs with
    | some e2 =>
      simp only [lastNonzeroIndex, hx, Option.some.injEq] at h
      subst h
      intro j hj
      cases j with
      | zero => omega
      | succ j2 => simpa using ih hx j2 (by omega)
    | none =>
      simp only [lastNonzeroIndex, hx] at h
      by_cases hx0 : x ≠ 0
      · rw [if_pos hx0] at h
        simp only [Option.some.injEq] at h
        subst h
        intro j hj
        cases j with
        | zero => omega
        | succ j2 => simpa using lastNonzeroIndex_eq_none hx j2
      · rw [if_neg hx0] at h
        exact absurd h (by simp)

/-- getD of a zipWith at an in-range index. -/
theorem getD_zipWith {α β γ : Type} (f : α → β → γ) (l1 : List α) (l2 : List β)
    (j : ℕ) (d1 : α) (d2 : β) (d3 : γ) (h1 : j < l1.length) (h2 : j < l2.length) :
    (List.zipWith f l1 l2).getD j d3 = f (l1.getD j d1) (l2.getD j d2) := by
  induction l1 generalizing l2 j with
  | nil => simp at h1
  | cons a as ih =>
    cases l2 with
    | nil => simp at h2
    | cons b bs =>
      cases j with
      | zero => simp
      | succ j2 =>
        simpa using ih bs j2 (by simpa using h1) (by simpa using h2)

/-- getD of a map at an in-range index. -/
theorem getD_map {α β : Type} (f : α → β) (l : List α) (j : ℕ) (d1 : α) (d2 : β)
    (h : j < l.length) : (l.map f).getD j d2 = f (l.getD j d1) := by
  induction l generalizing j with
  | nil => simp at h
  | cons a as ih =>
    cases j with
    | zero => simp
    | succ j2 => simpa using ih j2 (by simpa using h)

/-- Per-position clipped-surrogate loss term of `actor_loss` (lines 586-595):
loss1 = -advantages * r, loss2 = -advantages * clamp(r, 1-ratio_clip,
1+ratio_clip), per-position term = max(loss1, loss2); the masked mean of
these terms is the actor loss. -/
def actor_loss_term (ratio_clip a r : ℚ) : ℚ :=
  max (-a * r) (-a * torch_clamp r (1 - ratio_clip) (1 + ratio_clip))

/-- One row of `get_responses_mask` (lines 438-446): a zero tensor of the
sequence-mask's shape whose entries at positions >= the prompt length are
overwritten with the sequence mask. -/
def get_responses_mask_row (sequences_mask_row : List ℕ) (prompt_length : ℕ) :
    List ℕ :=
  List.replicate (min prompt_length sequences_mask_row.length) 0 ++
    sequences_mask_row.drop prompt_length

/-- Batch form of `get_responses_mask`: one row per example, the prompt
length taken from the padding-stripped prompt of that example. -/
def get_responses_mask (sequences_mask : List (List ℕ))
    (prompts_without_padding : List (List ℕ)) : List (List ℕ) :=
  List.zipWith (fun sm p => get_responses_mask_row sm p.length)
    sequences_mask prompts_without_padding

/-- One record's pass of the while loop of `get_mini_dataset`
(lines 561-583): the slices v[index : index + mbs] collected for
index = 0, mbs, 2*mbs, ... while index < batch_size, where batch_size is
the loop bound read from the FIRST buffered record (line 564) and each
slice clamps to v's own length, so a record shorter than the bound yields
empty slices and a longer one has its tail beyond the bound dropped.  A
zero minibatch size would loop forever in the source; it is guarded here
so the definition terminates. -/
def get_mini_dataset_slices {α : Type} (mbs batch_size : ℕ) (v : List α)
    (index : ℕ) : List (List α) :=
  if _hm : mbs = 0 then []
  else if _hidx : index < batch_size then
    (v.drop index).take mbs ::
      get_mini_dataset_slices mbs batch_size v (index + mbs)
  else []
termination_by batch_size - index
decreasing_by omega

/-- `get_mini_dataset` over a data buffer: every record is sliced with the
loop bound batch_size taken from the first record's batch dimension
(line 564), and the slices are concatenated in buffer order (the caller
shuffles the result).  `none` embeds the IndexError the source raises on
an empty buffer. -/
def get_mini_dataset {α : Type} (mbs : ℕ) (data_buffer : List (List α)) :
    Option (List (List α)) :=
  match data_buffer with
  | [] => none
  | first :: rest =>
    some (((first :: rest).map
      (fun v => get_mini_dataset_slices mbs first.length v 0)).flatten)

theorem get_mini_dataset_slices_length_le {α : Type} (mbs batch_size : ℕ)
    (v : List α) : ∀ index, ∀ c ∈ get_mini_dataset_slices mbs batch_size v index,
      c.length ≤ mbs := by
  suffices h : ∀ n index, batch_size - index ≤ n →
      ∀ c ∈ get_mini_dataset_slices mbs batch_size v index, c.length ≤ mbs by
    intro index
    exact h (batch_size - index) index le_rfl
  intro n
  induction n with
  | zero =>
    intro index hle c hc
    rw [get_mini_dataset_slices] at hc
    by_cases hm : mbs = 0
    · rw [dif_pos hm] at hc
      simp at hc
    · rw [dif_neg hm, dif_neg (by omega)] at hc
      simp at hc
  | succ n ih =>
    intro index hle c hc
    rw [get_mini_dataset_slices] at hc
    by_cases hm : mbs = 0
    · rw [dif_pos hm] at hc
      simp at hc
    · rw [dif_neg hm] at hc
      by_cases hidx : index < batch_size
      · rw [dif_pos hidx] at hc
        rcases List.mem_cons.mp hc with hc1 | hc2
        · subst hc1
          simp only [List.length_take, List.length_drop]
          omega
        · exact ih (index + mbs) (by omega) c hc2
      · rw [dif_neg hidx] at hc
        simp at hc

theorem get_mini_dataset_slices_sizes {α : Type} (mbs batch_size : ℕ)
    (hm : mbs ≠ 0) (v : List α) (hv : batch_size ≤ v.length) :
    ∀ index, ∀ c ∈ get_mini_dataset_slices mbs batch_size v index,
      0 < c.length ∧ c.length ≤ mbs := by
  suffices h : ∀ n index, batch_size - index ≤ n →
      ∀ c ∈ get_mini_dataset_slices mbs batch_size v index,
        0 < c.length ∧ c.length ≤ mbs by
    intro index
    exact h (batch_size - index) index le_rfl
  intro n
  induction n with
  | zero =>
    intro index hle c hc
    rw [get_mini_dataset_slices, dif_neg hm, dif_neg (by omega)] at hc
    simp at hc
  | succ n ih =>
    intro index hle c hc
    rw [get_mini_dataset_slices, dif_neg hm] at hc
    by_cases hidx : index < batch_size
    · rw [dif_pos hidx] at hc
      rcases List.mem_cons.mp hc with hc1 | hc2
      · subst hc1
        simp only [List.length_take, List.length_drop]
        omega
      · exact ih (index + mbs) (by omega) c hc2
    · rw [dif_neg hidx] at hc
      simp at hc

theorem get_mini_dataset_slices_flatten {α : Type} (mbs batch_size : ℕ)
    (hm : mbs ≠ 0) (v : List α) (hv : v.length = batch_size) :
    ∀ index, (get_mini_dataset_slices mbs batch_size v index).flatten =
      v.drop index := by
  suffices h : ∀ n index, batch_size - index ≤ n →
      (get_mini_dataset_slices mbs batch_size v index).flatten = v.drop index by
    intro index
    exact h (batch_size - index) index le_rfl
  intro n
  induction n with
  | zero =>
    intro index hle
    rw [get_mini_dataset_slices, dif_neg hm, dif_neg (by omega)]
    symm
    simp only [List.flatten_nil]
    exact List.drop_eq_nil_of_le (by omega)
  | succ n ih =>
    intro index hle
    rw [get_mini_dataset_slices, dif_neg hm]
    by_cases hidx : index < batch_size
    · have hdd : (v.drop index).drop mbs = v.drop (index + mbs) := by
        rw [List.drop_drop, Nat.add_comm]
      rw [dif_pos hidx, List.flatten_cons, ih (index + mbs) (by omega), ← hdd,
        List.take_append_drop]
    · rw [dif_neg hidx]
      symm
      simp only [List.flatten_nil]
      exact List.drop_eq_nil_of_le (by omega)

theorem get_responses_mask_row_getD (sm : List ℕ) (p j : ℕ) :
    (get_responses_mask_row sm p).getD j 0 = if j < p then 0 else sm.getD j 0 := by
  unfold get_responses_mask_row
  by_cases hj : j < min p sm.length
  · rw [List.getD_append _ _ _ _ (by simpa using hj)]
    have h0 : j < p := lt_of_lt_of_le hj (min_le_left _ _)
    simp [h0]
  · push_neg at hj
    rw [List.getD_append_right _ _ _ _ (by simpa using hj)]
    simp only [List.length_replicate]
    by_cases hp : p ≤ sm.length
    · have hk : min p sm.length = p := min_eq_left hp
      rw [hk] at hj ⊢
      rw [if_neg (by omega)]
      by_cases hrange : j - p < (sm.drop p).length
      · rw [List.getD_eq_getElem _ _ hrange, List.getElem_drop,
          List.getD_eq_getElem _ _ (by simp at hrange; omega)]
        congr 1
        omega
      · rw [List.getD_eq_default _ _ (by omega),
          List.getD_eq_default _ _ (by simp at hrange; omega)]
    · push_neg at hp
      have hk : min p sm.length = sm.length := min_eq_right (le_of_lt hp)
      rw [hk] at hj
      rw [List.drop_eq_nil_of_le (le_of_lt hp)]
      by_cases h0 : j < p
      · simp [h0]
      · rw [if_neg h0, List.getD_nil, List.getD_eq_default _ _ (by omega : sm.length ≤ j)]

theorem get_responses_mask_row_length (sm : List ℕ) (p : ℕ) :
    (get_responses_mask_row sm p).length = sm.length := by
  unfold get_responses_mask_row
  simp only [List.length_append, List.length_replicate, List.length_drop]
  omega

/-- C4: the response mask is zero at every prompt-segment index of every
example, regardless of the attention mask there, and equals the sequence
attention mask at every index at or past the prompt's length; row shape
matches the sequence mask's shape, and the batch mask is the row mask of
each example. -/
theorem C4_responses_mask (sm : List ℕ) (p : ℕ) :
    (get_responses_mask_row sm p).length = sm.length ∧
    (∀ j, j < p → (get_responses_mask_row sm p).getD j 0 = 0) ∧
    (∀ j, p ≤ j → (get_responses_mask_row sm p).getD j 0 = sm.getD j 0) ∧
    (∀ (sms ps : List (List ℕ)) (i : ℕ), i < sms.length → i < ps.length →
      (get_responses_mask sms ps).getD i [] =
        get_responses_mask_row (sms.getD i []) ((ps.getD i []).length)) := by
  refine ⟨get_responses_mask_row_length sm p, ?_, ?_, ?_⟩
  · intro j hj
    rw [get_responses_mask_row_getD, if_pos hj]
  · intro j hj
    rw [get_responses_mask_row_getD, if_neg (by omega)]
  · intro sms ps i h1 h2
    unfold get_responses_mask
    exact getD_zipWith _ sms ps i [] [] [] h1 h2

/-- C4 witness: a concrete sequence mask [1,1,1,1,0] with prompt length 2
has response mask zero on the prompt positions and the attention mask on
the rest. -/
theorem C4_responses_mask_witness :
    (get_responses_mask_row [1, 1, 1, 1, 0] 2).getD 0 0 = 0 ∧
    (get_responses_mask_row [1, 1, 1, 1, 0] 2).getD 2 0 = 1 ∧
    (get_responses_mask_row [1, 1, 1, 1, 0] 2).getD 4 0 = 0 := by
  refine ⟨(C4_responses_mask [1, 1, 1, 1, 0] 2).2.1 0 (by decide), ?_, ?_⟩
  · have h := (C4_responses_mask [1, 1, 1, 1, 0] 2).2.2.1 2 (by decide)
    rw [h]
    decide
  · have h := (C4_responses_mask [1, 1, 1, 1, 0] 2).2.2.1 4 (by decide)
    rw [h]
    decide

/-- C8: pessimism of the clipped surrogate: when the advantage is positive
and the ratio exceeds 1 + ratio_clip, the clipped term is selected and the
loss term dominates the unclipped -advantage * ratio; symmetrically for a
negative advantage and a ratio below 1 - ratio_clip. -/
theorem C8_actor_loss_pessimism (ratio_clip a r : ℚ) (hc : 0 ≤ ratio_clip) :
    (0 < a → 1 + ratio_clip < r →
      actor_loss_term ratio_clip a r = -a * (1 + ratio_clip) ∧
      -a * r ≤ actor_loss_term ratio_clip a r) ∧
    (a < 0 → r < 1 - ratio_clip →
      actor_loss_term ratio_clip a r = -a * (1 - ratio_clip) ∧
      -a * r ≤ actor_loss_term ratio_clip a r) := by
  constructor
  · intro ha hr
    have hclamp : torch_clamp r (1 - ratio_clip) (1 + ratio_clip) = 1 + ratio_clip := by
      unfold torch_clamp
      rw [min_eq_right (le_of_lt hr)]
      exact max_eq_right (by linarith)
    have hle : -a * r ≤ -a * (1 + ratio_clip) := by nlinarith
    unfold actor_loss_term
    rw [hclamp, max_eq_right hle]
    exact ⟨rfl, hle⟩
  · intro ha hr
    have hclamp : torch_clamp r (1 - ratio_clip) (1 + ratio_clip) = 1 - ratio_clip := by
      unfold torch_clamp
      rw [min_eq_left (by linarith)]
      exact max_eq_left (le_of_lt hr)
    have hle : -a * r ≤ -a * (1 - ratio_clip) := by nlinarith
    unfold actor_loss_term
    rw [hclamp, max_eq_right hle]
    exact ⟨rfl, hle⟩

/-- C8 witness: with ratio_clip = 1/2, advantage 1 and ratio 2 the loss
term equals the clipped value -(1 + 1/2) and dominates -1 * 2. -/
theorem C8_actor_loss_pessimism_witness :
    actor_loss_term (1/2) 1 2 = -(1 : ℚ) * (1 + 1/2) ∧
    -(1 : ℚ) * 2 ≤ actor_loss_term (1/2) 1 2 :=
  (C8_actor_loss_pessimism (1/2) 1 2 (by norm_num)).1 (by norm_num) (by norm_num)

/-- C5 counterexample: with minibatch size 2 and one buffered record of 5
examples, the while loop of `get_mini_dataset` emits a final minibatch
with a single example instead of dropping it, so not every produced
minibatch has exactly the configured size. -/
theorem C5_mini_dataset_counterexample :
    get_mini_dataset 2 [[(0 : ℕ), 1, 2, 3, 4]] =
      some [[0, 1], [2, 3], [4]] ∧
    ([4] : List ℕ).length ≠ 2 := by
  constructor
  · rw [get_mini_dataset]
    simp [get_mini_dataset_slices]
  · decide

/-- C5 amended: every produced minibatch has at most the configured size;
and when all buffered records have the same batch size as the first one
(the loop bound of line 564 is read from the first record only), every
minibatch is nonempty and concatenating the minibatches recovers every
buffered example, so a batch size that is not a multiple of the minibatch
size yields a final smaller minibatch, emitted rather than dropped or
padded.  (For a record shorter than the first the loop emits empty slices,
and for a longer one it drops the tail beyond the bound.) -/
theorem C5_mini_dataset_amended {α : Type} (mbs : ℕ) (hm : mbs ≠ 0)
    (first : List α) (rest : List (List α))
    (hhomog : ∀ v ∈ first :: rest, v.length = first.length) :
    (∀ (buffer : List (List α)) (mini : List (List α)),
      get_mini_dataset mbs buffer = some mini → ∀ c ∈ mini, c.length ≤ mbs) ∧
    ∃ mini, get_mini_dataset mbs (first :: rest) = some mini ∧
      (∀ c ∈ mini, 0 < c.length ∧ c.length ≤ mbs) ∧
      mini.flatten = (first :: rest).flatten := by
  constructor
  · intro buffer mini hsome c hc
    cases buffer with
    | nil => simp [get_mini_dataset] at hsome
    | cons f r =>
      rw [get_mini_dataset] at hsome
      simp only [Option.some.injEq] at hsome
      subst hsome
      obtain ⟨chunks, hchunks, hcmem⟩ := List.mem_flatten.mp hc
      obtain ⟨v, hv, rfl⟩ := List.mem_map.mp hchunks
      exact get_mini_dataset_slices_length_le mbs f.length v 0 c hcmem
  · refine ⟨_, rfl, ?_, ?_⟩
    · intro c hc
      obtain ⟨chunks, hchunks, hcmem⟩ := List.mem_flatten.mp hc
      obtain ⟨v, hv, rfl⟩ := List.mem_map.mp hchunks
      have hlen : v.length = first.length := hhomog v hv
      exact get_mini_dataset_slices_sizes mbs first.length hm v (by omega)
        0 c hcmem
    · have key : ∀ l : List (List α), (∀ v ∈ l, v.length = first.length) →
          ((l.map (fun v =>
            get_mini_dataset_slices mbs first.length v 0)).flatten).flatten =
            l.flatten := by
        intro l hl
        induction l with
        | nil => simp
        | cons v vs ih =>
          simp only [List.map_cons, List.flatten_cons, List.flatten_append]
          rw [get_mini_dataset_slices_flatten mbs first.length hm v
              (hl v (by simp)) 0, List.drop_zero,
            ih (fun u hu => hl u (by simp [hu]))]
      exact key (first :: rest) hhomog

/-- C5 witness: minibatch size 2 over two records of 5 examples each: all
minibatches have 1 or 2 examples and concatenating them recovers all ten
examples. -/
theorem C5_mini_dataset_witness :
    (∀ (buffer : List (List ℕ)) (mini : List (List ℕ)),
      get_mini_dataset 2 buffer = some mini → ∀ c ∈ mini, c.length ≤ 2) ∧
    ∃ mini, get_mini_dataset 2 [[(0 : ℕ), 1, 2, 3, 4], [5, 6, 7, 8, 9]] =
        some mini ∧
      (∀ c ∈ mini, 0 < c.length ∧ c.length ≤ 2) ∧
      mini.flatten = [[(0 : ℕ), 1, 2, 3, 4], [5, 6, 7, 8, 9]].flatten :=
  C5_mini_dataset_amended 2 (by decide) [0, 1, 2, 3, 4] [[5, 6, 7, 8, 9]]
    (by decide)

/-- getD of a set at a different index. -/
theorem getD_set_ne {α : Type} (l : List α) (i j : ℕ) (a d : α) (h : i ≠ j) :
    (l.set i a).getD j d = l.getD j d := by
  induction l generalizing i j with
  | nil => simp
  | cons x xs ih =>
    cases i with
    | zero =>
      cases j with
      | zero => omega
      | succ j2 => simp
    | succ i2 =>
      cases j with
      | zero => simp
      | succ j2 => simpa using ih i2 j2 (by omega)

/-- getD of a set at the written index. -/
theorem getD_set_self {α : Type} (l : List α) (i : ℕ) (a d : α)
    (h : i < l.length) : (l.set i a).getD i d = a := by
  induction l generalizing i with
  | nil => simp at h
  | cons x xs ih =>
    cases i with
    | zero => simp
    | succ i2 => simpa using ih i2 (by simpa using h)

/-- KL-penalty transforms recognized by `compute_rewards_with_kl_penalty`
(lines 397-401): identity (default), absolute value, or mse = 0.5 * kl^2. -/
inductive KlPenaltyMethod : Type
  | identity
  | abs
  | mse

/-- Transform applied to kl = actor_log_prob - ref_log_prob according to
the configured method. -/
def kl_transform : KlPenaltyMethod → ℚ → ℚ
  | .identity, kl => kl
  | .abs, kl => |kl|
  | .mse, kl => kl ^ 2 * (1 / 2)

/-- Optional clamp of the scalar reward score to
[-reward_score_clip, reward_score_clip] (lines 406-407). -/
def applyRewardClip (reward_score_clip : Option ℚ) (x : ℚ) : ℚ :=
  match reward_score_clip with
  | none => x
  | some c => torch_clamp x (-c) c

/-- One row of `get_last_reward_score` (lines 360-372): the reference value
at the last nonzero index of the full response-mask row; `none` embeds the
IndexError on an all-zero mask row. -/
def get_last_reward_score_row (value : List ℚ) (responses_mask_row : List ℕ) :
    Option ℚ :=
  (lastNonzeroIndex responses_mask_row).map (fun e => value.getD e 0)

/-- One row of `compute_rewards_with_kl_penalty` (lines 388-413): the
KL penalty -beta * transform(actor_lp - ref_lp) per position, with the
(optionally clamped) reward score added in place at the last nonzero index
of the shifted mask row.  The in-place `+=` also mutates the tensor already
appended to the kl_penalty list, so the first two components of the result
are the same (mutated) series, as in the source. -/
def compute_rewards_with_kl_penalty_row (kl_penalty_beta : ℚ)
    (method : KlPenaltyMethod) (reward_score_clip : Option ℚ)
    (ref_value actor_log_probs_row ref_log_probs_row : List ℚ)
    (responses_mask_row : List ℕ) : Option (List ℚ × List ℚ × ℚ) :=
  match get_last_reward_score_row ref_value responses_mask_row with
  | none => none
  | some raw_score =>
    let score := applyRewardClip reward_score_clip raw_score
    let kl := (List.zipWith (fun a b => a - b)
        actor_log_probs_row ref_log_probs_row).map (kl_transform method)
    let kl_penalty := kl.map (fun x => -kl_penalty_beta * x)
    match lastNonzeroIndex (responses_mask_row.drop 1) with
    | none => none
    | some e =>
      let rewards := kl_penalty.set e (kl_penalty.getD e 0 + score)
      some (rewards, rewards, score)

theorem lastNonzeroIndex_drop_one {l : List ℕ} {e : ℕ}
    (h : lastNonzeroIndex (l.drop 1) = some e) :
    ∃ x xs, l = x :: xs ∧ lastNonzeroIndex l = some (e + 1) := by
  cases l with
  | nil => simp [lastNonzeroIndex] at h
  | cons x xs =>
    simp only [List.drop_succ_cons, List.drop_zero] at h
    exact ⟨x, xs, rfl, by simp [lastNonzeroIndex, h]⟩

/-- C1: for every example whose shifted response-mask row has a nonzero
position, the produced per-token reward series is
-kl_penalty_beta * transform(actor_lp - ref_lp) at every position, except
at exactly the last nonzero index of the shifted mask, where additionally
the optionally clamped scalar reward score (the reference value at the last
nonzero index of the full mask) is added; no other position receives any
part of the score. -/
theorem C1_reward_placement (beta : ℚ) (method : KlPenaltyMethod)
    (clip : Option ℚ) (ref_value actor_lp ref_lp : List ℚ) (mask : List ℕ)
    (hA : actor_lp.length = mask.length - 1)
    (hR : ref_lp.length = mask.length - 1)
    (e : ℕ) (he : lastNonzeroIndex (mask.drop 1) = some e) :
    ∃ rewards score,
      compute_rewards_with_kl_penalty_row beta method clip ref_value
        actor_lp ref_lp mask = some (rewards, rewards, score) ∧
      score = applyRewardClip clip (ref_value.getD (e + 1) 0) ∧
      rewards.length = actor_lp.length ∧
      (∀ j, j < actor_lp.length → j ≠ e →
        rewards.getD j 0 =
          -beta * kl_transform method (actor_lp.getD j 0 - ref_lp.getD j 0)) ∧
      rewards.getD e 0 =
        -beta * kl_transform method (actor_lp.getD e 0 - ref_lp.getD e 0) +
          score := by
  obtain ⟨x, xs, rfl, hfull⟩ := lastNonzeroIndex_drop_one he
  have hxs : (x :: xs).drop 1 = xs := by simp
  have he2 : lastNonzeroIndex xs = some e := by rwa [hxs] at he
  have hAxs : actor_lp.length = xs.length := by simpa using hA
  have hRxs : ref_lp.length = xs.length := by simpa using hR
  have helt : e < xs.length := by
    have := lastNonzeroIndex_lt_length he
    simpa [hxs] using this
  have hklp_len :
      (((List.zipWith (fun a b => a - b) actor_lp ref_lp).map
        (kl_transform method)).map (fun y => -beta * y)).length
        = actor_lp.length := by
    simp [hAxs, hRxs]
  have hgetD : ∀ j, j < actor_lp.length →
      (((List.zipWith (fun a b => a - b) actor_lp ref_lp).map
        (kl_transform method)).map (fun y => -beta * y)).getD j 0 =
        -beta * kl_transform method (actor_lp.getD j 0 - ref_lp.getD j 0) := by
    intro j hj
    rw [getD_map _ _ j 0 _ (by simp [hAxs, hRxs]; omega),
      getD_map _ _ j 0 _ (by simp [hAxs, hRxs]; omega),
      getD_zipWith _ _ _ j 0 0 0 (by omega) (by omega)]
  refine ⟨(((List.zipWith (fun a b => a - b) actor_lp ref_lp).map
      (kl_transform method)).map (fun y => -beta * y)).set e
        ((((List.zipWith (fun a b => a - b) actor_lp ref_lp).map
          (kl_transform method)).map (fun y => -beta * y)).getD e 0 +
          applyRewardClip clip (ref_value.getD (e + 1) 0)),
    applyRewardClip clip (ref_value.getD (e + 1) 0), ?_, rfl, ?_, ?_, ?_⟩
  · simp only [compute_rewards_with_kl_penalty_row, get_last_reward_score_row,
      hfull, Option.map_some', hxs, he2]
  · simpa using hklp_len
  · intro j hj hje
    rw [getD_set_ne _ _ _ _ _ (by omega)]
    exact hgetD j hj
  · rw [getD_set_self _ _ _ _ (by rw [hklp_len]; omega)]
    rw [hgetD e (by omega)]

/-- C1 witness: beta = 1, identity method, no clip, reference values
[5,5,5], actor log-probs [2,3], reference log-probs [1,1] and mask [0,1,1]:
the reward series is [-1, -2+5] with the score 5 placed only at the last
response position. -/
theorem C1_reward_placement_witness :
    ∃ rewards score,
      compute_rewards_with_kl_penalty_row 1 KlPenaltyMethod.identity none
        [5, 5, 5] [2, 3] [1, 1] [0, 1, 1] = some (rewards, rewards, score) ∧
      score = applyRewardClip none ([(5 : ℚ), 5, 5].getD (1 + 1) 0) ∧
      rewards.length = [(2 : ℚ), 3].length ∧
      (∀ j, j < [(2 : ℚ), 3].length → j ≠ 1 →
        rewards.getD j 0 = -1 * kl_transform KlPenaltyMethod.identity
          ([(2 : ℚ), 3].getD j 0 - [(1 : ℚ), 1].getD j 0)) ∧
      rewards.getD 1 0 = -1 * kl_transform KlPenaltyMethod.identity
          ([(2 : ℚ), 3].getD 1 0 - [(1 : ℚ), 1].getD 1 0) + score :=
  C1_reward_placement 1 KlPenaltyMethod.identity none [5, 5, 5] [2, 3] [1, 1]
    [0, 1, 1] (by decide) (by decide) 1 (by decide)

/-- `process_sequences` (lines 331-357): per example, drop as many leading
prompt positions as there are pad tokens anywhere in the prompt, keep as
many leading response positions as there are non-pad tokens anywhere in the
response, concatenate, right-pad the batch to its maximum length with the
pad token, and emit the attention mask (token != pad).  Returns
(prompts_without_padding, responses_without_padding, sequence ids,
sequence attention mask). -/
def process_sequences (pad : ℕ) (prompts_ids responses_ids : List (List ℕ)) :
    List (List ℕ) × List (List ℕ) × List (List ℕ) × List (List ℕ) :=
  let prompts_without_padding :=
    prompts_ids.map (fun p => p.drop (p.countP (fun t => t == pad)))
  let responses_without_padding :=
    responses_ids.map (fun r => r.take (r.countP (fun t => t != pad)))
  let new_sequences :=
    List.zipWith (fun q r => q ++ r) prompts_without_padding responses_without_padding
  let max_len := (new_sequences.map List.length).foldr max 0
  let sequences :=
    new_sequences.map (fun s2 => s2 ++ List.replicate (max_len - s2.length) pad)
  let attention_mask :=
    sequences.map (fun s2 => s2.map (fun t => if t = pad then 0 else 1))
  (prompts_without_padding, responses_without_padding, sequences, attention_mask)

/-- C9 counterexample: with pad token 0, prompt [1,2] and an all-padding
response [0,0], `process_sequences` returns normally (it is a total
function with no failure channel) and its response output is the
zero-length list, not a length-1 clamp. -/
theorem C9_process_sequences_counterexample :
    (process_sequences 0 [[1, 2]] [[0, 0]]).2.1 = [[]] ∧
    (([] : List ℕ).length ≠ 1 ∧ ([] : List ℕ).length = 0) ∧
    (process_sequences 0 [[1, 2]] [[0, 0]]).2.2.1 = [[1, 2]] := by
  refine ⟨?_, by decide, ?_⟩ <;> decide

theorem countP_eq_zero_of_all_pad {pad : ℕ} {r : List ℕ}
    (h : ∀ t ∈ r, t = pad) : r.countP (fun t => t != pad) = 0 := by
  induction r with
  | nil => simp
  | cons t ts ih =>
    have ht : t = pad := h t (by simp)
    have hts : ∀ u ∈ ts, u = pad := fun u hu => h u (by simp [hu])
    simp [List.countP_cons, ht, ih hts]

/-- C9 amended: `process_sequences` never signals a condition for an
all-padding response: it silently emits the zero-length response for that
example (the failure only surfaces later, when the all-zero response mask
reaches the terminal-reward indexing). -/
theorem C9_process_sequences_amended (pad : ℕ)
    (prompts_ids responses_ids : List (List ℕ)) (i : ℕ)
    (hi : i < responses_ids.length)
    (hpad : ∀ t ∈ responses_ids.getD i [], t = pad) :
    ((process_sequences pad prompts_ids responses_ids).2.1).getD i [pad] = [] := by
  unfold process_sequences
  rw [getD_map _ _ i [] _ hi]
  rw [countP_eq_zero_of_all_pad hpad]
  simp

/-- C9 witness: pad token 7, two responses of which the second is entirely
padding: the second processed response is the empty list. -/
theorem C9_process_sequences_amended_witness :
    ((process_sequences 7 [[1], [2]] [[3, 4], [7, 7]]).2.1).getD 1 [7] = [] :=
  C9_process_sequences_amended 7 [[1], [2]] [[3, 4], [7, 7]] 1 (by decide)
    (by decide)

/-- State dict of the scalar value head (summary.weight, summary.bias). -/
structure VHeadStateDict (W : Type) where
  weight : W
  bias : W
deriving DecidableEq

/-- The critic-role model state that `get_model_output` (lines 480-501)
mutates: the live v_head weights, the frozen reward-head weights kept as
registered buffers, and the critic_head_weight / critic_head_bias
attributes written by setattr before the reward forward. -/
structure CriticModelState (W : Type) where
  v_head : VHeadStateDict W
  reward_head_weight : W
  reward_head_bias : W
  critic_head_weight : W
  critic_head_bias : W
deriving DecidableEq

/-- setattr of critic_head_weight / critic_head_bias from the current
v_head state dict (lines 491-493). -/
def save_critic_head {W : Type} (m : CriticModelState W) : CriticModelState W :=
  { m with critic_head_weight := m.v_head.weight, critic_head_bias := m.v_head.bias }

/-- Load the frozen reward head into v_head (line 495). -/
def load_reward_head {W : Type} (m : CriticModelState W) : CriticModelState W :=
  { m with v_head := ⟨m.reward_head_weight, m.reward_head_bias⟩ }

/-- Load the saved critic head back into v_head (line 499). -/
def load_critic_head {W : Type} (m : CriticModelState W) : CriticModelState W :=
  { m with v_head := ⟨m.critic_head_weight, m.critic_head_bias⟩ }

/-- The v_head swap sequence of `get_model_output` (lines 488-499) as a
state transformer: save the critic head, load the reward head, run the
reward forward, and load the critic head back — with no try/finally, so a
raising forward propagates with the reward head still loaded.  `Except`
carries the model state an exception leaves behind. -/
def get_model_output_swap {W B E : Type}
    (reward_forward : CriticModelState W → Except E B)
    (m : CriticModelState W) : Except (E × CriticModelState W) (B × CriticModelState W) :=
  let m2 := load_reward_head (save_critic_head m)
  match reward_forward m2 with
  | Except.error e => Except.error (e, m2)
  | Except.ok b => Except.ok (b, load_critic_head m2)

/-- Concrete pre-call critic state used for the C3 counterexample. -/
def c3_state : CriticModelState ℕ :=
  { v_head := ⟨1, 2⟩, reward_head_weight := 5, reward_head_bias := 6,
    critic_head_weight := 0, critic_head_bias := 0 }

/-- The state in which a raising reward forward leaves the concrete C3
model: reward head loaded into v_head, critic head saved in the attribute
slots. -/
def c3_state_after_raise : CriticModelState ℕ :=
  { v_head := ⟨5, 6⟩, reward_head_weight := 5, reward_head_bias := 6,
    critic_head_weight := 1, critic_head_bias := 2 }

/-- C3 counterexample: when the inner reward forward raises, the exception
leaves the model with the frozen reward head loaded into v_head — the
critic's value-head weights are not restored to their pre-call values on
that exit path (there is no try/finally around lines 495-499). -/
theorem C3_swap_counterexample :
    get_model_output_swap
        (fun _ => (Except.error () : Except Unit ℕ)) c3_state =
      Except.error ((), c3_state_after_raise) ∧
    c3_state_after_raise.v_head ≠ c3_state.v_head := by
  exact ⟨rfl, by decide⟩

/-- C3 amended: on the non-raising path the swap is restored: when the
inner reward forward returns normally, `get_model_output` leaves the
critic's value-head weights bit-identical to their pre-call values. -/
theorem C3_swap_amended {W B E : Type} (m : CriticModelState W)
    (reward_forward : CriticModelState W → Except E B) (b : B)
    (h : reward_forward (load_reward_head (save_critic_head m)) = Except.ok b) :
    get_model_output_swap reward_forward m =
      Except.ok (b, load_critic_head (load_reward_head (save_critic_head m))) ∧
    (load_critic_head (load_reward_head (save_critic_head m))).v_head = m.v_head := by
  constructor
  · simp only [get_model_output_swap, h]
  · simp [load_critic_head, load_reward_head, save_critic_head]

/-- C3 witness: a successful reward forward on the concrete state returns
with the original v_head (1, 2) restored. -/
theorem C3_swap_amended_witness :
    get_model_output_swap
        (fun _ => (Except.ok 42 : Except Unit ℕ)) c3_state =
      Except.ok (42, load_critic_head (load_reward_head (save_critic_head c3_state))) ∧
    (load_critic_head (load_reward_head (save_critic_head c3_state))).v_head =
      c3_state.v_head :=
  C3_swap_amended c3_state (fun _ => (Except.ok 42 : Except Unit ℕ)) 42 rfl

/-- int(extra_warmup_steps_ratio * max_steps) from `train_step` (line 764);
for the nonnegative ratios used, Python int() truncation is the floor. -/
noncomputable def extra_warmup_steps_of (extra_warmup_steps_ratio : ℝ)
    (max_steps : ℕ) : ℤ :=
  ⌊extra_warmup_steps_ratio * (max_steps : ℝ)⌋

/-- The auxiliary loss weight used by `train_step` at a given step
(lines 760-770) when a warm-up ratio is configured: a linear ramp
step / warmup * extra_loss_weight below the warm-up horizon, and otherwise
extra_loss_weight ** 1.001 — recomputed each call from the configured
constant, since the exponentiated local variable is never persisted. -/
noncomputable def extra_loss_weight_warmup (extra_loss_weight : ℝ)
    (extra_warmup_steps step : ℕ) : ℝ :=
  if step < extra_warmup_steps then
    (step : ℝ) / (extra_warmup_steps : ℝ) * extra_loss_weight
  else Real.rpow extra_loss_weight 1.001

/-- C7 counterexample: with target weight 2 (> 1) and warm-up horizon 5,
the weights at post-warm-up steps 6 and 7 are equal, so the weight is not
strictly increasing across consecutive post-warm-up steps: the source
recomputes args.extra_loss_weight ** 1.001 from scratch every call instead
of compounding it. -/
theorem C7_extra_weight_counterexample :
    extra_loss_weight_warmup 2 5 6 = extra_loss_weight_warmup 2 5 7 ∧
    ¬ extra_loss_weight_warmup 2 5 6 < extra_loss_weight_warmup 2 5 7 ∧
    (1 : ℝ) < 2 := by
  refine ⟨rfl, ?_, by norm_num⟩
  have h : extra_loss_weight_warmup 2 5 6 = extra_loss_weight_warmup 2 5 7 := rfl
  rw [h]
  exact lt_irrefl _

/-- C7 amended: below the warm-up horizon the weight ramps linearly as
step / warmup * extra_loss_weight; at or after the horizon it is the
constant extra_loss_weight ** 1.001, identical at every post-warm-up
step. -/
theorem C7_extra_weight_amended (extra_loss_weight : ℝ) (warmup : ℕ) :
    (∀ step, step < warmup →
      extra_loss_weight_warmup extra_loss_weight warmup step =
        (step : ℝ) / (warmup : ℝ) * extra_loss_weight) ∧
    (∀ step, warmup ≤ step →
      extra_loss_weight_warmup extra_loss_weight warmup step =
        Real.rpow extra_loss_weight 1.001) ∧
    (∀ s t, warmup ≤ s → warmup ≤ t →
      extra_loss_weight_warmup extra_loss_weight warmup s =
        extra_loss_weight_warmup extra_loss_weight warmup t) := by
  refine ⟨?_, ?_, ?_⟩
  · intro step hs
    unfold extra_loss_weight_warmup
    rw [if_pos hs]
  · intro step hs
    unfold extra_loss_weight_warmup
    rw [if_neg (by omega)]
  · intro s t hs ht
    unfold extra_loss_weight_warmup
    rw [if_neg (by omega), if_neg (by omega)]

/-- C7 witness: with target weight 3 and warm-up horizon 4, step 2 gets the
linear ramp value and steps 9 and 23 get equal post-warm-up weights. -/
theorem C7_extra_weight_amended_witness :
    extra_loss_weight_warmup 3 4 2 = (2 : ℝ) / (4 : ℝ) * 3 ∧
    extra_loss_weight_warmup 3 4 9 = extra_loss_weight_warmup 3 4 23 :=
  ⟨(C7_extra_weight_amended 3 4).1 2 (by norm_num),
    (C7_extra_weight_amended 3 4).2.2 9 23 (by norm_num) (by norm_num)⟩

/-- `masked_mean` (lines 234-239), dim=None path: (data * mask).sum()
divided by (mask.sum() + eps) with eps = 1e-8. -/
noncomputable def masked_mean (data mask : List ℝ) : ℝ :=
  (List.zipWith (fun d m => d * m) data mask).sum / (mask.sum + 1 / 100000000)

/-- `masked_var` (lines 241-245), dim=None path: masked mean of the
squared deviations from the masked mean. -/
noncomputable def masked_var (data mask : List ℝ) : ℝ :=
  masked_mean ((data.map (fun d => (d - masked_mean data mask) ^ 2))) mask

/-- The mean used by `masked_whiten` (line 249): data.sum() / mask.sum() —
the sum runs over all positions, masked or not, while the count is the
number of valid positions. -/
noncomputable def whiten_mean (data mask : List ℝ) : ℝ := data.sum / mask.sum

/-- The variance used by `masked_whiten` (line 250): the mask-weighted sum
of squared deviations from `whiten_mean`, divided by mask.sum(). -/
noncomputable def whiten_var (data mask : List ℝ) : ℝ :=
  (List.zipWith (fun d m => (d - whiten_mean data mask) ^ 2 * m) data mask).sum /
    mask.sum

/-- `masked_whiten` (lines 248-255): (data - mean) * rsqrt(var + 1e-6),
with the mean added back to every position when shift_mean is False. -/
noncomputable def masked_whiten (data mask : List ℝ) (shift_mean : Bool) :
    List ℝ :=
  let w := data.map (fun d =>
    (d - whiten_mean data mask) *
      (Real.sqrt (whiten_var data mask + 1 / 1000000))⁻¹)
  if shift_mean then w else w.map (fun y => y + whiten_mean data mask)

/-- Exact mask-weighted second moment, used to state what the masked
variance of a whitened series is. -/
noncomputable def masked_second_moment (data mask : List ℝ) : ℝ :=
  (List.zipWith (fun d m => d ^ 2 * m) data mask).sum / mask.sum

/-- C6 counterexample: data [1, 3, 10] with mask [1, 1, 0] (two valid
positions, a nonzero entry under the zero mask) and shift_mean = False:
the masked mean of the whitened output exceeds 1, far from 0 — the
re-added mean data.sum()/mask.sum() = 7 dominates. -/
theorem C6_whiten_counterexample :
    1 < masked_mean (masked_whiten [1, 3, 10] [1, 1, 0] false) [1, 1, 0] := by
  have hmean : whiten_mean [1, 3, 10] [1, 1, 0] = 7 := by
    unfold whiten_mean
    norm_num [List.sum_cons, List.sum_nil]
  have hvar : whiten_var [1, 3, 10] [1, 1, 0] = 26 := by
    unfold whiten_var
    rw [hmean]
    norm_num [List.zipWith, List.sum_cons, List.sum_nil]
  have hs_pos : 0 < (Real.sqrt (26 + 1 / 1000000))⁻¹ := by
    rw [inv_pos]
    rw [Real.sqrt_pos]
    norm_num
  have hs_lt : (Real.sqrt (26 + 1 / 1000000))⁻¹ < 1 / 5 := by
    rw [inv_lt_comm₀ (by rw [Real.sqrt_pos]; norm_num) (by norm_num)]
    rw [show ((1 : ℝ) / 5)⁻¹ = 5 by norm_num]
    rw [Real.lt_sqrt (by norm_num)]
    norm_num
  have hout : masked_whiten [1, 3, 10] [1, 1, 0] false =
      [(1 - 7) * (Real.sqrt (26 + 1 / 1000000))⁻¹ + 7,
       (3 - 7) * (Real.sqrt (26 + 1 / 1000000))⁻¹ + 7,
       (10 - 7) * (Real.sqrt (26 + 1 / 1000000))⁻¹ + 7] := by
    unfold masked_whiten
    rw [hmean, hvar]
    simp
  rw [hout]
  unfold masked_mean
  rw [show ([(1 : ℝ), 1, 0].sum + 1 / 100000000) = 2 + 1 / 100000000 by
    norm_num [List.sum_cons, List.sum_nil]]
  rw [lt_div_iff₀ (by norm_num)]
  simp only [List.zipWith, List.sum_cons, List.sum_nil]
  nlinarith [hs_pos, hs_lt]

theorem sum_zipWith_mul_eq_sum :
    ∀ (data mask : List ℝ), data.length = mask.length →
    (∀ p ∈ data.zip mask, p.2 = 0 ∨ p.2 = 1) →
    (∀ p ∈ data.zip mask, p.2 = 0 → p.1 = 0) →
    (List.zipWith (fun d m => d * m) data mask).sum = data.sum := by
  intro data
  induction data with
  | nil => intro mask hlen h01 hz; simp
  | cons d ds ih =>
    intro mask hlen h01 hz
    cases mask with
    | nil => simp at hlen
    | cons m ms =>
      have hlen2 : ds.length = ms.length := by simpa using hlen
      have h01t : ∀ p ∈ ds.zip ms, p.2 = 0 ∨ p.2 = 1 := by
        intro p hp
        exact h01 p (by simp [List.zip_cons_cons, hp])
      have hzt : ∀ p ∈ ds.zip ms, p.2 = 0 → p.1 = 0 := by
        intro p hp
        exact hz p (by simp [List.zip_cons_cons, hp])
      have hhead : (d, m) ∈ (d :: ds).zip (m :: ms) := by
        simp [List.zip_cons_cons]
      simp only [List.zipWith_cons_cons, List.sum_cons, ih ms hlen2 h01t hzt]
      rcases h01 (d, m) hhead with hm | hm
      · have hm2 : m = 0 := hm
        have hd : d = 0 := hz (d, m) hhead hm
        have hd2 : d = 0 := hd
        simp [hm2, hd2]
      · have hm2 : m = 1 := hm
        simp [hm2]

theorem sum_zipWith_affine (c s : ℝ) :
    ∀ (data mask : List ℝ), data.length = mask.length →
    (List.zipWith (fun d m => (d - c) * s * m) data mask).sum =
      s * ((List.zipWith (fun d m => d * m) data mask).sum - c * mask.sum) := by
  intro data
  induction data with
  | nil =>
    intro mask hlen
    have : mask = [] := List.eq_nil_of_length_eq_zero (by simpa using hlen.symm)
    simp [this]
  | cons d ds ih =>
    intro mask hlen
    cases mask with
    | nil => simp at hlen
    | cons m ms =>
      have hlen2 : ds.length = ms.length := by simpa using hlen
      simp only [List.zipWith_cons_cons, List.sum_cons, ih ms hlen2]
      ring

theorem sum_zipWith_sq_scale (c s : ℝ) :
    ∀ (data mask : List ℝ),
    (List.zipWith (fun d m => ((d - c) * s) ^ 2 * m) data mask).sum =
      s ^ 2 * (List.zipWith (fun d m => (d - c) ^ 2 * m) data mask).sum := by
  intro data
  induction data with
  | nil => intro mask; simp
  | cons d ds ih =>
    intro mask
    cases mask with
    | nil => simp
    | cons m ms =>
      simp only [List.zipWith_cons_cons, List.sum_cons, ih ms]
      ring

theorem sum_zipWith_sq_nonneg (c : ℝ) :
    ∀ (data mask : List ℝ), (∀ p ∈ data.zip mask, p.2 = 0 ∨ p.2 = 1) →
    0 ≤ (List.zipWith (fun d m => (d - c) ^ 2 * m) data mask).sum := by
  intro data
  induction data with
  | nil => intro mask h01; simp
  | cons d ds ih =>
    intro mask h01
    cases mask with
    | nil => simp
    | cons m ms =>
      have h01t : ∀ p ∈ ds.zip ms, p.2 = 0 ∨ p.2 = 1 := by
        intro p hp
        exact h01 p (by simp [List.zip_cons_cons, hp])
      have hm : (0 : ℝ) ≤ m := by
        rcases h01 (d, m) (by simp [List.zip_cons_cons]) with hm | hm
        · have hm2 : m = 0 := hm
          rw [hm2]
        · have hm2 : m = 1 := hm
          rw [hm2]
          norm_num
      simp only [List.zipWith_cons_cons, List.sum_cons]
      have h1 : 0 ≤ (d - c) ^ 2 * m := mul_nonneg (sq_nonneg _) hm
      have h2 := ih ms h01t
      linarith

/-- C6 amended: with shift_mean = True and data that vanishes outside a
0/1 mask with positive count, the whitened output has masked mean exactly
0 and mask-weighted second moment (its masked variance about that zero
mean) exactly var / (var + 1e-6) — approximately 1 whenever the variance
dominates the 1e-6 guard.  With shift_mean = False the mean
data.sum()/mask.sum() is re-added, so the masked mean is near that mean
rather than 0; and that mean sums the data over all positions, not only
the valid ones. -/
theorem C6_whiten_amended (data mask : List ℝ)
    (hlen : data.length = mask.length)
    (h01 : ∀ p ∈ data.zip mask, p.2 = 0 ∨ p.2 = 1)
    (hzero : ∀ p ∈ data.zip mask, p.2 = 0 → p.1 = 0)
    (hk : 0 < mask.sum) :
    masked_mean (masked_whiten data mask true) mask = 0 ∧
    masked_second_moment (masked_whiten data mask true) mask =
      whiten_var data mask / (whiten_var data mask + 1 / 1000000) := by
  have hkne : mask.sum ≠ 0 := ne_of_gt hk
  have hw : masked_whiten data mask true = data.map (fun d =>
      (d - whiten_mean data mask) *
        (Real.sqrt (whiten_var data mask + 1 / 1000000))⁻¹) := by
    unfold masked_whiten
    simp
  have hvar_nonneg : 0 ≤ whiten_var data mask := by
    unfold whiten_var
    exact div_nonneg (sum_zipWith_sq_nonneg _ data mask h01) (le_of_lt hk)
  have hsq : ((Real.sqrt (whiten_var data mask + 1 / 1000000))⁻¹) ^ 2 =
      (whiten_var data mask + 1 / 1000000)⁻¹ := by
    rw [inv_pow, Real.sq_sqrt (by positivity)]
  constructor
  · rw [hw]
    unfold masked_mean
    rw [List.zipWith_map_left]
    have := sum_zipWith_affine (whiten_mean data mask)
      ((Real.sqrt (whiten_var data mask + 1 / 1000000))⁻¹) data mask hlen
    rw [show (fun a b => ((a - whiten_mean data mask) *
        (Real.sqrt (whiten_var data mask + 1 / 1000000))⁻¹) * b) =
      (fun d m => (d - whiten_mean data mask) *
        (Real.sqrt (whiten_var data mask + 1 / 1000000))⁻¹ * m) from rfl, this]
    rw [sum_zipWith_mul_eq_sum data mask hlen h01 hzero]
    unfold whiten_mean
    rw [div_mul_cancel₀ _ hkne]
    simp
  · rw [hw]
    unfold masked_second_moment
    rw [List.zipWith_map_left]
    have := sum_zipWith_sq_scale (whiten_mean data mask)
      ((Real.sqrt (whiten_var data mask + 1 / 1000000))⁻¹) data mask
    rw [show (fun a b => ((a - whiten_mean data mask) *
        (Real.sqrt (whiten_var data mask + 1 / 1000000))⁻¹) ^ 2 * b) =
      (fun d m => ((d - whiten_mean data mask) *
        (Real.sqrt (whiten_var data mask + 1 / 1000000))⁻¹) ^ 2 * m) from rfl,
      this, hsq]
    have hvs : (List.zipWith (fun d m => (d - whiten_mean data mask) ^ 2 * m)
        data mask).sum = whiten_var data mask * mask.sum := by
      unfold whiten_var
      rw [div_mul_cancel₀ _ hkne]
    rw [hvs]
    field_simp
    ring

/-- C6 witness: data [1, 3] with mask [1, 1]: the whitened output (with
shift_mean = True) has masked mean 0 and mask-weighted second moment
var / (var + 1e-6). -/
theorem C6_whiten_amended_witness :
    masked_mean (masked_whiten [1, 3] [1, 1] true) [1, 1] = 0 ∧
    masked_second_moment (masked_whiten [1, 3] [1, 1] true) [1, 1] =
      whiten_var [1, 3] [1, 1] / (whiten_var [1, 3] [1, 1] + 1 / 1000000) :=
  C6_whiten_amended [1, 3] [1, 1] (by simp)
    (by intro p hp; simp [List.zip_cons_cons] at hp; rcases hp with rfl | rfl
        · right; rfl
        · right; rfl)
    (by intro p hp; simp [List.zip_cons_cons] at hp; rcases hp with rfl | rfl
        · norm_num
        · norm_num)
    (by norm_num [List.sum_cons, List.sum_nil])

/-- The backward GAE loop of `get_advantages_and_returns` (lines 420-429)
as a function of the (values, rewards) rows, generic over the scalar
field: element t is delta_t + gamma * lam * gae_(t+1) with
delta_t = reward_t + gamma * nextvalues - value_t, where nextvalues is
value_(t+1) for t < T-1 and 0 at the terminal step (expressed as
vs.getD 0 0 over the remaining values) and the accumulator starts from 0
past the end (getD 0 0 of the empty remainder). -/
def gaeAdvantages {K : Type} [Field K] (gamma lam : K) :
    List K → List K → List K
  | v :: vs, r :: rs =>
    let rest := gaeAdvantages gamma lam vs rs
    let nextvalues : K := vs.getD 0 0
    let nextgae : K := rest.getD 0 0
    (r + gamma * nextvalues - v + gamma * lam * nextgae) :: rest
  | _, _ => []

/-- `get_advantages_and_returns` (lines 416-435): advantages from the
backward GAE loop, returns = advantages + values formed before any
normalization, and the advantages whitened over the shifted response mask
only when use_advantage_norm is set. -/
noncomputable def get_advantages_and_returns (gamma lam : ℝ)
    (use_advantage_norm : Bool) (values rewards responses_mask : List ℝ) :
    List ℝ × List ℝ :=
  let advantages := gaeAdvantages gamma lam values rewards
  let returns := List.zipWith (fun a v => a + v) advantages values
  (if use_advantage_norm then
    masked_whiten advantages (responses_mask.drop 1) true
   else advantages, returns)

theorem gaeAdvantages_cons_eq {K : Type} [Field K] (gamma lam v r : K)
    (vs rs : List K) :
    gaeAdvantages gamma lam (v :: vs) (r :: rs) =
      (r + gamma * vs.getD 0 0 - v +
        gamma * lam * (gaeAdvantages gamma lam vs rs).getD 0 0) ::
        gaeAdvantages gamma lam vs rs := by
  simp only [gaeAdvantages]

theorem gaeAdvantages_length {K : Type} [Field K] (gamma lam : K) :
    ∀ (values rewards : List K),
      (gaeAdvantages gamma lam values rewards).length =
        min values.length rewards.length := by
  intro values
  induction values with
  | nil => intro rewards; cases rewards <;> simp [gaeAdvantages]
  | cons v vs ih =>
    intro rewards
    cases rewards with
    | nil => simp [gaeAdvantages]
    | cons r rs =>
      rw [gaeAdvantages_cons_eq]
      simp only [List.length_cons, ih rs]
      omega

theorem gaeAdvantages_getD {K : Type} [Field K] (gamma lam : K) :
    ∀ (values rewards : List K), values.length = rewards.length →
    ∀ t, t < rewards.length →
      (gaeAdvantages gamma lam values rewards).getD t 0 =
        rewards.getD t 0 +
          gamma * (if t + 1 < rewards.length then values.getD (t + 1) 0 else 0) -
          values.getD t 0 +
          gamma * lam * (gaeAdvantages gamma lam values rewards).getD (t + 1) 0 := by
  intro values
  induction values with
  | nil =>
    intro rewards hlen t ht
    rw [← hlen] at ht
    simp at ht
  | cons v vs ih =>
    intro rewards hlen t ht
    cases rewards with
    | nil => simp at ht
    | cons r rs =>
      have hlen2 : vs.length = rs.length := by simpa using hlen
      cases t with
      | zero =>
        rw [gaeAdvantages_cons_eq]
        simp only [List.getD_cons_zero, List.getD_cons_succ]
        cases rs with
        | nil =>
          have hvs : vs = [] := List.eq_nil_of_length_eq_zero (by simpa using hlen2)
          subst hvs
          simp [gaeAdvantages]
        | cons r2 rs2 =>
          rw [if_pos (by simp)]
          try simp
      | succ t2 =>
        have ht2 : t2 < rs.length := by simpa using ht
        rw [gaeAdvantages_cons_eq]
        simp only [List.getD_cons_succ, List.length_cons,
          Nat.add_lt_add_iff_right]
        exact ih rs hlen2 t2 ht2

theorem gaeAdvantages_one_one {K : Type} [Field K] :
    ∀ (values rewards : List K), values.length = rewards.length →
    ∀ t, t < rewards.length →
      (gaeAdvantages 1 1 values rewards).getD t 0 =
        (rewards.drop t).sum - values.getD t 0 := by
  intro values
  induction values with
  | nil =>
    intro rewards hlen t ht
    rw [← hlen] at ht
    simp at ht
  | cons v vs ih =>
    intro rewards hlen t ht
    cases rewards with
    | nil => simp at ht
    | cons r rs =>
      have hlen2 : vs.length = rs.length := by simpa using hlen
      cases t with
      | zero =>
        rw [gaeAdvantages_cons_eq]
        simp only [List.getD_cons_zero, List.drop_zero, List.sum_cons]
        cases rs with
        | nil =>
          have hvs : vs = [] := List.eq_nil_of_length_eq_zero (by simpa using hlen2)
          subst hvs
          simp [gaeAdvantages]
          try ring
        | cons r2 rs2 =>
          have hhead := ih (r2 :: rs2) hlen2 0 (by simp)
          simp only [List.drop_zero, List.sum_cons] at hhead
          rw [hhead]
          simp only [List.sum_cons]
          ring
      | succ t2 =>
        have ht2 : t2 < rs.length := by simpa using ht
        rw [gaeAdvantages_cons_eq]
        simp only [List.getD_cons_succ, List.drop_succ_cons]
        exact ih rs hlen2 t2 ht2

/-- C2: with normalization disabled, the advantages returned by
`get_advantages_and_returns` satisfy the backward GAE recursion
delta_t = reward_t + gamma * value_(t+1) - value_t (value_(T+1) := 0 at
the terminal step), gae_t = delta_t + gamma * lam * gae_(t+1); the returns
satisfy return_t = advantage_t + value_t; and with gamma = lam = 1 each
return is the Monte-Carlo sum of the rewards from that position on. -/
theorem C2_gae_recursion (gamma lam : ℝ)
    (values rewards responses_mask : List ℝ)
    (hlen : values.length = rewards.length) :
    (∀ t, t < rewards.length →
      (get_advantages_and_returns gamma lam false values rewards
          responses_mask).1.getD t 0 =
        rewards.getD t 0 +
          gamma * (if t + 1 < rewards.length then values.getD (t + 1) 0 else 0) -
          values.getD t 0 +
          gamma * lam * (get_advantages_and_returns gamma lam false values
            rewards responses_mask).1.getD (t + 1) 0) ∧
    (∀ t, t < rewards.length →
      (get_advantages_and_returns gamma lam false values rewards
          responses_mask).2.getD t 0 =
        (get_advantages_and_returns gamma lam false values rewards
          responses_mask).1.getD t 0 + values.getD t 0) ∧
    (gamma = 1 → lam = 1 → ∀ t, t < rewards.length →
      (get_advantages_and_returns gamma lam false values rewards
          responses_mask).2.getD t 0 = (rewards.drop t).sum) := by
  have hfst : (get_advantages_and_returns gamma lam false values rewards
      responses_mask).1 = gaeAdvantages gamma lam values rewards := by
    simp [get_advantages_and_returns]
  have hsnd : (get_advantages_and_returns gamma lam false values rewards
      responses_mask).2 = List.zipWith (fun a v => a + v)
        (gaeAdvantages gamma lam values rewards) values := by
    simp [get_advantages_and_returns]
  have hadvlen : (gaeAdvantages gamma lam values rewards).length =
      rewards.length := by
    rw [gaeAdvantages_length, hlen, min_self]
  refine ⟨?_, ?_, ?_⟩
  · intro t ht
    rw [hfst]
    exact gaeAdvantages_getD gamma lam values rewards hlen t ht
  · intro t ht
    rw [hfst, hsnd]
    exact getD_zipWith _ _ _ t 0 0 0 (by omega) (by omega)
  · intro hg hl t ht
    subst hg
    subst hl
    rw [hsnd, getD_zipWith _ _ _ t 0 0 0 (by omega) (by omega),
      gaeAdvantages_one_one values rewards hlen t ht]
    ring

/-- C2 witness: values [0,0,0], rewards [1,1,1], gamma = lam = 1 and no
normalization: the first return is the Monte-Carlo sum 1 + 1 + 1. -/
theorem C2_gae_recursion_witness :
    (get_advantages_and_returns 1 1 false [0, 0, 0] [1, 1, 1]
        [1, 1, 1, 1]).2.getD 0 0 = ([(1 : ℝ), 1, 1].drop 0).sum :=
  (C2_gae_recursion 1 1 [0, 0, 0] [1, 1, 1] [1, 1, 1, 1] (by simp)).2.2
    rfl rfl 0 (by simp)

/-- C10: the returned returns tensor is always the raw, un-whitened GAE
advantages plus values, independently of the use_advantage_norm flag; with
normalization enabled only the returned advantages are whitened (after the
returns are formed), so at a concrete input the identity
return_t = advantage_t + value_t fails between the two returned tensors. -/
theorem C10_returns_unwhitened (gamma lam : ℝ) (b : Bool)
    (values rewards responses_mask : List ℝ) :
    (get_advantages_and_returns gamma lam b values rewards responses_mask).2 =
      List.zipWith (fun a v => a + v)
        (gaeAdvantages gamma lam values rewards) values ∧
    (get_advantages_and_returns gamma lam b values rewards responses_mask).2 =
      (get_advantages_and_returns gamma lam false values rewards
        responses_mask).2 ∧
    List.zipWith (fun a v => a + v)
        (get_advantages_and_returns 1 1 true [0, 0] [1, 1] [1, 1, 1]).1
        [0, 0] ≠
      (get_advantages_and_returns 1 1 true [0, 0] [1, 1] [1, 1, 1]).2 := by
  refine ⟨by simp [get_advantages_and_returns],
    by simp [get_advantages_and_returns], ?_⟩
  have hadv : gaeAdvantages (1 : ℝ) 1 [0, 0] [1, 1] = [2, 1] := by
    norm_num [gaeAdvantages]
  have hfst : (get_advantages_and_returns 1 1 true [0, 0] [1, 1]
      [1, 1, 1]).1 = masked_whiten [2, 1] [1, 1] true := by
    simp [get_advantages_and_returns, hadv]
  have hsnd : (get_advantages_and_returns 1 1 true [0, 0] [1, 1]
      [1, 1, 1]).2 = [2, 1] := by
    simp [get_advantages_and_returns, hadv]
  have hmu : whiten_mean [2, 1] [1, 1] = 3 / 2 := by
    unfold whiten_mean
    norm_num [List.sum_cons, List.sum_nil]
  have hvr : whiten_var [2, 1] [1, 1] = 1 / 4 := by
    unfold whiten_var
    rw [hmu]
    norm_num [List.zipWith, List.sum_cons, List.sum_nil]
  have hwh : masked_whiten [2, 1] [1, 1] true =
      [(2 - 3 / 2) * (Real.sqrt (1 / 4 + 1 / 1000000))⁻¹,
       (1 - 3 / 2) * (Real.sqrt (1 / 4 + 1 / 1000000))⁻¹] := by
    unfold masked_whiten
    rw [hmu, hvr]
    simp
  have hslt : (Real.sqrt (1 / 4 + 1 / 1000000))⁻¹ < 4 := by
    rw [inv_lt_comm₀ (by rw [Real.sqrt_pos]; norm_num) (by norm_num)]
    rw [show ((4 : ℝ))⁻¹ = 1 / 4 by norm_num]
    rw [Real.lt_sqrt (by norm_num)]
    norm_num
  intro hcontra
  rw [hfst, hwh, hsnd] at hcontra
  simp only [List.zipWith_cons_cons, List.zipWith_nil_right,
    List.cons.injEq] at hcontra
  obtain ⟨h1, h2⟩ := hcontra
  nlinarith [hslt, h1]
